import Mathlib

/-!
Verification development for the `genie_tts` text front-end:
a shallow embedding of the dual-language G2P pipeline
(`Japanese/JapaneseG2P.py`, `Chinese/ChineseG2P.py`, `Chinese/Split.py`)
and the reference-audio cache (`Audio/ReferenceAudio.py`),
with theorems settling the specification's claims.

Strings are handled as `List Char` internally (with `String` wrappers),
mirroring Python's per-character string operations.  External collaborators
(pyopenjtalk, pypinyin, audio loading, neural models) are parameters of the
embedded functions, as they are opaque inputs to the code under study.
-/

namespace Genie

/-! ## Python string primitives -/

/-- Characters stripped by Python `str.strip()` (whitespace, including the
common Unicode space characters relevant to this pipeline). -/
def isPySpace (c : Char) : Bool :=
  c = ' ' ∨ c = '\t' ∨ c = '\n' ∨ c = '\r' ∨ c.toNat = 0x0b ∨ c.toNat = 0x0c ∨
  c.toNat = 0x1c ∨ c.toNat = 0x1d ∨ c.toNat = 0x1e ∨ c.toNat = 0x1f ∨
  c.toNat = 0x85 ∨ c.toNat = 0xa0 ∨ c.toNat = 0x1680 ∨
  (0x2000 ≤ c.toNat ∧ c.toNat ≤ 0x200a) ∨ c.toNat = 0x2028 ∨ c.toNat = 0x2029 ∨
  c.toNat = 0x202f ∨ c.toNat = 0x205f ∨ c.toNat = 0x3000

/-- Python `str.strip()`: drop leading and trailing whitespace. -/
def pyStrip (s : List Char) : List Char :=
  ((s.dropWhile isPySpace).reverse.dropWhile isPySpace).reverse

/-- Python `str.lower()` on the character ranges this pipeline distinguishes
(ASCII and full-width Latin capitals; all other characters used by the
pipeline are unaffected by lowering). -/
def pyLowerChar (c : Char) : Char :=
  if 65 ≤ c.toNat ∧ c.toNat ≤ 90 then Char.ofNat (c.toNat + 32)
  else if 0xff21 ≤ c.toNat ∧ c.toNat ≤ 0xff3a then Char.ofNat (c.toNat + 32)
  else c

/-- Python substring containment `needle in hay` (`str.__contains__`). -/
def isSubstrOf (needle : List Char) : List Char → Bool
  | [] => needle.isPrefixOf []
  | c :: rest => needle.isPrefixOf (c :: rest) || isSubstrOf needle rest

/-- Parse a nonempty all-digit string, as Python `int` does on such input. -/
def parseDigits (s : List Char) : Option Nat :=
  if s ≠ [] ∧ s.all Char.isDigit then
    some (s.foldl (fun a c => a * 10 + (c.toNat - 48)) 0)
  else none

/-- Python `int(s)` on the capture strings arising here: an optional leading
minus sign followed by digits; anything else raises (`none`). -/
def pyInt (s : List Char) : Option Int :=
  match s with
  | [] => none
  | c :: rest =>
    if c = '-' then (parseDigits rest).map (fun n => -(n : Int))
    else (parseDigits (c :: rest)).map Int.ofNat

/-! ## Regex-style extraction used by `JapaneseG2P._numeric_feature_by_regex`

Each feature pattern in the source has the shape
"literal prefix, then a character class one-or-more (greedy), then a literal
delimiter character not in the class", e.g. `/A:([0-9\-]+)\+`.  Because the
delimiter is never a class character, Python's backtracking search matches,
at the leftmost feasible position, the maximal class run immediately followed
by the delimiter.  Labels are single-line, so `.` is unrestricted. -/

/-- Try the pattern `pre (cls+) d` anchored at the start of `s`,
returning the captured class run. -/
def matchClassAt (pre : List Char) (cls : Char → Bool) (d : Char)
    (s : List Char) : Option (List Char) :=
  if pre.isPrefixOf s then
    let r := s.drop pre.length
    let run := r.takeWhile cls
    if run ≠ [] ∧ (r.drop run.length).head? = some d then some run else none
  else none

/-- `re.search` for the pattern `pre (cls+) d`: leftmost match wins. -/
def findClassRun (pre : List Char) (cls : Char → Bool) (d : Char) :
    List Char → Option (List Char)
  | [] => none
  | c :: rest =>
    match matchClassAt pre cls d (c :: rest) with
    | some r => some r
    | none => findClassRun pre cls d rest

/-- `JapaneseG2P._numeric_feature_by_regex`: absent pattern yields the
sentinel −50; a captured run that `int()` cannot parse raises (`none`). -/
def numericFeatureBy (pre : List Char) (cls : Char → Bool) (d : Char)
    (s : List Char) : Option Int :=
  match findClassRun pre cls d s with
  | none => some (-50)
  | some cap => pyInt cap

/-- Feature `e3`, regex `!(\d+)_`. -/
def featE3 (s : List Char) : Option Int :=
  numericFeatureBy ['!'] Char.isDigit '_' s

/-- Feature `a1`, regex `/A:([0-9\-]+)\+`. -/
def featA1 (s : List Char) : Option Int :=
  numericFeatureBy ['/', 'A', ':'] (fun c => c.isDigit || c = '-') '+' s

/-- Feature `a2`, regex `\+(\d+)\+`. -/
def featA2 (s : List Char) : Option Int :=
  numericFeatureBy ['+'] Char.isDigit '+' s

/-- Feature `a3`, regex `\+(\d+)/`. -/
def featA3 (s : List Char) : Option Int :=
  numericFeatureBy ['+'] Char.isDigit '/' s

/-- Feature `f1`, regex `/F:(\d+)_`. -/
def featF1 (s : List Char) : Option Int :=
  numericFeatureBy ['/', 'F', ':'] Char.isDigit '_' s

/-- `re.search(r"-(.*?)\+", lab).group(1)`: the substring between the first
`-` that is followed by a `+`, and that first following `+`; `none` models
the `AttributeError` raised when there is no match. -/
def extractP3 (s : List Char) : Option (List Char) :=
  match s.dropWhile (fun c => c ≠ '-') with
  | [] => none
  | _ :: tail =>
    if tail.any (fun c => c = '+') then some (tail.takeWhile (fun c => c ≠ '+'))
    else none

/-- The current phone of a label: extracted `p3`, lower-cased when it is a
(Python *substring*) of `"AEIOU"`, exactly as the source tests
`if p3 in "AEIOU"`. -/
def p3Of (lab : List Char) : Option String :=
  (extractP3 lab).map (fun cap =>
    ⟨if isSubstrOf cap ("AEIOU".data) then cap.map Char.toLower else cap⟩)

/-! ## `JapaneseG2P._pyopenjtalk_g2p_prosody`

The loop body for label `n`, as a function of the whole label stream
(`lab_next` peeks at label `n+1`).  `none` models a raised exception
(a failed `.group(1)` or `int()`). -/

/-- Symbols emitted for label `n` of the stream. -/
def prosodyEmit (labs : List (List Char)) (n : Nat) : Option (List String) :=
  match labs.get? n with
  | none => some []
  | some lab =>
    match p3Of lab with
    | none => none
    | some p3 =>
      if p3 = "sil" then
        if n = 0 then some ["^"]
        else if n = labs.length - 1 then
          (featE3 lab).map (fun e3 => [if e3 = 1 then "?" else "$"])
        else some []
      else if p3 = "pau" then some ["_"]
      else
        match featA1 lab, featA2 lab, featA3 lab, featF1 lab with
        | some a1, some a2, some a3, some f1 =>
          match featA2 ((labs.get? (n + 1)).getD []) with
          | some a2n =>
            if a3 = 1 ∧ a2n = 1 ∧ isSubstrOf p3.data ("aeiouAEIOUNcl".data) then
              some [p3, "#"]
            else if a1 = 0 ∧ a2n = a2 + 1 ∧ a2 ≠ f1 then some [p3, "]"]
            else if a2 = 1 ∧ a2n = 2 then some [p3, "["]
            else some [p3]
          | none => none
        | _, _, _, _ => none

/-- `JapaneseG2P._pyopenjtalk_g2p_prosody` applied to the label stream the
front-end collaborator returned: concatenation of the per-label emissions. -/
def pyProsody (labs : List (List Char)) : Option (List String) :=
  ((List.range labs.length).mapM (prosodyEmit labs)).map List.flatten

/-! ## Japanese text normalization and segmentation -/

/-- The punctuation class of `_CONSECUTIVE_PUNCTUATION_RE`: `[,./?!~…・]`. -/
def isConsecPunc (c : Char) : Bool :=
  c = ',' ∨ c = '.' ∨ c = '/' ∨ c = '?' ∨ c = '!' ∨ c = '~' ∨ c = '…' ∨ c = '・'

/-- `_SYMBOLS_TO_JAPANESE`: replace every `%` and `％` by パーセント. -/
def expandPercent (s : List Char) : List Char :=
  s.flatMap (fun c => if c = '%' ∨ c = '％' then "パーセント".data else [c])

theorem length_dropWhile_le (p : Char → Bool) (l : List Char) :
    (l.dropWhile p).length ≤ l.length := by
  induction l with
  | nil => simp [List.dropWhile]
  | cons a l ih =>
    simp only [List.dropWhile]
    split
    · exact le_trans ih (Nat.le_succ _)
    · simp

/-- Helper of `collapsePunc`, carrying the previous character: a
punctuation character equal to its predecessor is dropped. -/
def collapsePuncAux (prev : Char) : List Char → List Char
  | [] => []
  | c :: rest =>
    if c = prev ∧ isConsecPunc c then collapsePuncAux prev rest
    else c :: collapsePuncAux c rest

/-- `re.sub(r"([,./?!~…・])\1+", r"\1", ·)`: collapse every run of two or
more identical punctuation characters to a single occurrence. -/
def collapsePunc : List Char → List Char
  | [] => []
  | c :: rest => c :: collapsePuncAux c rest

/-- `JapaneseG2P._text_normalize`: percent expansion, punctuation-run
collapse, lower-casing, in the source's order. -/
def textNormalize (s : List Char) : List Char :=
  (collapsePunc (expandPercent s)).map pyLowerChar

/-- The character class of `_JAPANESE_CHARACTERS_RE` (kana, kanji,
half/full-width alphanumerics); `_JAPANESE_MARKS_RE` is its complement. -/
def isJaChar (c : Char) : Bool :=
  (65 ≤ c.toNat ∧ c.toNat ≤ 90) ∨ (97 ≤ c.toNat ∧ c.toNat ≤ 122) ∨
  (48 ≤ c.toNat ∧ c.toNat ≤ 57) ∨ c.toNat = 0x3005 ∨
  (0x3040 ≤ c.toNat ∧ c.toNat ≤ 0x30ff) ∨
  (0x4e00 ≤ c.toNat ∧ c.toNat ≤ 0x9fff) ∨
  (0xff11 ≤ c.toNat ∧ c.toNat ≤ 0xff19) ∨
  (0xff21 ≤ c.toNat ∧ c.toNat ≤ 0xff3a) ∨
  (0xff41 ≤ c.toNat ∧ c.toNat ≤ 0xff5a) ∨
  (0xff66 ≤ c.toNat ∧ c.toNat ≤ 0xff9d)

/-- `_CHINESE_CHARACTERS_RE.search`: the text contains a CJK ideograph in
U+4E00–U+9FA5 (`is_chinese` in both G2P files). -/
def is_chinese (t : String) : Bool :=
  t.data.any (fun c => 0x4e00 ≤ c.toNat ∧ c.toNat ≤ 0x9fa5)

/-- `re.split` of a single-character class regex together with `re.findall`
of the same regex: the content segments between mark characters (first
component, always one more than the marks) and the mark characters
themselves (second component), in order. -/
def splitMarks (p : Char → Bool) : List Char → List (List Char) × List Char
  | [] => ([[]], [])
  | c :: rest =>
    let r := splitMarks p rest
    if p c then ([] :: r.1, c :: r.2)
    else
      match r with
      | (s :: ss, ms) => ((c :: s) :: ss, ms)
      | ([], ms) => ([[c]], ms)

/-- Reassemble alternating content segments and single-character marks. -/
def interleave : List (List Char) → List Char → List Char
  | [], _ => []
  | s :: ss, [] => s ++ interleave ss []
  | s :: ss, m :: ms => s ++ m :: interleave ss ms

/-- `JapaneseG2P._post_replace_phoneme` (same table as
`ChineseG2P._post_replace_phoneme`). -/
def postReplace (p : String) : String :=
  if p = "：" then "," else if p = "；" then ","
  else if p = "，" then "," else if p = "。" then "."
  else if p = "！" then "!" else if p = "？" then "?"
  else if p = "\n" then "." else if p = "·" then ","
  else if p = "、" then "," else if p = "..." then "…" else p

/-! ## External collaborators of the G2P pipeline -/

/-- The external engines consumed by the G2P code: `pyopenjtalk`'s label
front-end and plain g2p, and `pypinyin`'s romanization with its
initial/final decomposition helpers. -/
structure G2PCollab where
  frontend : String → List String
  plainG2p : String → String
  pinyin : String → List String
  getInitials : String → String
  getFinals : String → String

/-- Phones for one content segment in prosody mode:
`_pyopenjtalk_g2p_prosody(segment)[1:-1]`. -/
def jaSegPhones (fe : String → List String) (seg : String) :
    Option (List String) :=
  (pyProsody ((fe seg).map String.data)).map (fun ph => (ph.drop 1).dropLast)

/-- The `for i, segment in enumerate(japanese_segments)` loop: per-segment
phones, then the stripped single-character mark that followed the segment,
when non-empty. -/
def jaInterleave (C : G2PCollab) (withProsody : Bool) :
    List (List Char) → List Char → Option (List String)
  | [], _ => some []
  | seg :: ss, ms => do
    let ph ←
      if seg = [] then pure []
      else if withProsody then jaSegPhones C.frontend ⟨seg⟩
      else pure ((C.plainG2p ⟨seg⟩).splitOn " ")
    let markSyms :=
      match ms with
      | [] => ([] : List String)
      | m :: _ => if isPySpace m then [] else [⟨[m]⟩]
    let rest ← jaInterleave C withProsody ss (ms.drop 1)
    pure (ph ++ markSyms ++ rest)

/-- The Japanese branch of `JapaneseG2P.g2p`: normalize, split into
content/mark spans, derive phones per span, interleave marks, post-replace. -/
def jaPipeline (C : G2PCollab) (withProsody : Bool) (text : String) :
    Option (List String) :=
  let norm := textNormalize text.data
  let sm := splitMarks (fun c => !(isJaChar c)) norm
  (jaInterleave C withProsody sm.1 sm.2).map (List.map postReplace)

/-- `pypinyin`-based syllable decomposition, the common body of
`JapaneseG2P._chinese_g2p` and `ChineseG2P._get_phonemes`
(character-identical functions in the source). -/
def pinyinPhonemes (C : G2PCollab) (text : String) : List String :=
  (C.pinyin text).flatMap (fun syl =>
    let base : List Char :=
      (syl.data.reverse.dropWhile (fun c => c ∈ ['1', '2', '3', '4', '5'])).reverse
    let tone : List Char := syl.data.drop base.length
    let tone := if tone = [] then ['5'] else tone
    let ini := C.getInitials ⟨base⟩
    let fin := C.getFinals ⟨base⟩
    (if ini ≠ "" then [ini] else []) ++
    (if fin ≠ "" then [⟨fin.data ++ tone⟩] else []))

/-- `JapaneseG2P.g2p`: blank input yields `[]`; text containing a character
in U+4E00–U+9FA5 is routed to `_chinese_g2p`; everything else goes through
the Japanese pipeline. -/
def g2p (C : G2PCollab) (withProsody : Bool) (text : String) :
    Option (List String) :=
  if pyStrip text.data = [] then some []
  else if is_chinese text then some (pinyinPhonemes C text)
  else jaPipeline C withProsody text

/-! ## `ChineseG2P` (`Chinese/ChineseG2P.py`) -/

/-- The delimiter class of `_PUNCTUATION_RE`:
`[,./?!~…・;:"\'\n\t 、，。！？；：]`. -/
def isZhPunct (c : Char) : Bool :=
  c ∈ [',', '.', '/', '?', '!', '~', '…', '・', ';', ':', '"', '\'',
       '\n', '\t', ' ', '、', '，', '。', '！', '？', '；', '：']

/-- Helper of `groupRuns`: accumulate the current run (reversed) of the
given class. -/
def groupRunsAux (p : Char → Bool) (cur : List Char) (curClass : Bool) :
    List Char → List (List Char)
  | [] => [cur.reverse]
  | c :: rest =>
    if p c = curClass then groupRunsAux p (c :: cur) curClass rest
    else cur.reverse :: groupRunsAux p [c] (p c) rest

/-- Maximal runs of characters of equal `p`-class, in order.  `re.split`
with the capturing one-or-more delimiter group produces exactly these
non-empty alternating segments (plus empty strings the loop skips). -/
def groupRuns (p : Char → Bool) : List Char → List (List Char)
  | [] => []
  | c :: rest => groupRunsAux p [c] (p c) rest

/-- `ChineseG2P.g2p`: blank input yields `[]`; split by punctuation runs
keeping the delimiters; punctuation runs are stripped and kept as single
symbols, content runs become pinyin initial/final+tone symbols; then
post-replacement and removal of empty symbols. -/
def zhG2P (C : G2PCollab) (text : String) : List String :=
  if pyStrip text.data = [] then []
  else
    let segs := groupRuns isZhPunct text.data
    let raw := segs.flatMap (fun seg =>
      if seg.all isZhPunct then [(⟨pyStrip seg⟩ : String)]
      else pinyinPhonemes C ⟨seg⟩)
    (raw.map postReplace).filter (fun s => s ≠ "")

/-! ## Phoneme-id encoding (`chinese_to_phones` / `japanese_to_phones`)

The symbol table `symbol_to_id_v2` (module `SymbolsV2`) is not part of the
sources under study; per the specification it is an immutable symbol→id
mapping over a fixed vocabulary that includes a reserved unknown symbol.
It is therefore an abstract parameter `table` here. -/

/-- The encoding loop shared by `chinese_to_phones` and
`japanese_to_phones`: each symbol absent from the table is replaced by
`"UNK"`, then every symbol is looked up; `none` models the `KeyError`
raised when a lookup fails (only possible if `"UNK"` itself is missing). -/
def toPhonesIds (table : String → Option Nat) (phs : List String) :
    Option (List Nat) :=
  phs.mapM (fun ph =>
    match table ph with
    | some i => some i
    | none => table "UNK")

/-- `chinese_to_phones`: `ChineseG2P.g2p` then id encoding. -/
def chinese_to_phones (C : G2PCollab) (table : String → Option Nat)
    (text : String) : Option (List Nat) :=
  toPhonesIds table (zhG2P C text)

/-- `japanese_to_phones`: `JapaneseG2P.g2p` (prosody mode) then id
encoding; `none` is a raised exception from either stage. -/
def japanese_to_phones (C : G2PCollab) (table : String → Option Nat)
    (text : String) : Option (List Nat) :=
  (g2p C true text).bind (toPhonesIds table)

/-! ## `Chinese/Split.py` -/

/-- `VALID_CHAR_PATTERN`: CJK ideographs, half-width letters and digits. -/
def isValidChar (c : Char) : Bool :=
  (0x4e00 ≤ c.toNat ∧ c.toNat ≤ 0x9fff) ∨
  (65 ≤ c.toNat ∧ c.toNat ≤ 90) ∨ (97 ≤ c.toNat ∧ c.toNat ≤ 122) ∨
  (48 ≤ c.toNat ∧ c.toNat ≤ 57)

/-- `get_valid_text_length`: number of valid characters. -/
def validLen (s : List Char) : Nat := (s.filter isValidChar).length

/-- `SENTENCE_TERMINATORS = "，。！？…"`. -/
def isTerminator (c : Char) : Bool := c ∈ ['，', '。', '！', '？', '…']

/-- `re.split` with the zero-width lookbehind `(?<=[terminators])`: spans
that each end right after a terminator; only the final span can be empty. -/
def splitAfterTerm : List Char → List (List Char)
  | [] => [[]]
  | c :: rest =>
    let r := splitAfterTerm rest
    if isTerminator c then [c] :: r
    else
      match r with
      | s :: ss => (c :: s) :: ss
      | [] => [[c]]

/-- The raw sentence list of `split_chinese_text` before the merge step:
each span stripped, empty results dropped. -/
def rawChunks (t : List Char) : List (List Char) :=
  ((splitAfterTerm t).map pyStrip).filter (fun s => s ≠ [])

/-- One step of the short-sentence merge loop (`MIN_SENTENCE_LENGTH = 5`). -/
def mergeStep (acc : List (List Char)) (s : List Char) : List (List Char) :=
  if h : acc = [] then [s]
  else if validLen s < 5 then acc.dropLast ++ [acc.getLast h ++ s]
  else acc ++ [s]

/-- `split_chinese_text`: split at terminators, strip, drop empties, then
merge sentences of effective length below the threshold into their
predecessor; the fallback branch returns the whole text when the raw list
is empty but the text is non-blank. -/
def split_chinese_text (t : String) : List String :=
  if t = "" then []
  else
    let raws := rawChunks t.data
    if raws = [] then if pyStrip t.data ≠ [] then [t] else []
    else (raws.foldl mergeStep []).map (fun l => ⟨l⟩)

/-! ## The reference-audio cache (`Audio/ReferenceAudio.py`) -/

/-- Modelled from the spec: `LRUCacheDict` (module `Utils/Utils.py`, not
among the sources under study).  Per the specification it is a mapping with
a fixed maximum size that tracks access/insertion order and evicts the
least-recently-used entry, exactly one per over-capacity insertion.
`items` is ordered least-recent first. -/
structure LRUCacheDict (α : Type) where
  capacity : Nat
  items : List (String × α)
deriving DecidableEq, Repr

/-- Key lookup without recency refresh (`__contains__`). -/
def lookupLRU {α : Type} (σ : LRUCacheDict α) (k : String) : Option α :=
  (σ.items.find? (fun p => p.1 == k)).map Prod.snd

/-- Recency refresh performed by `__getitem__` on a present key. -/
def touchLRU {α : Type} (σ : LRUCacheDict α) (k : String) : LRUCacheDict α :=
  match lookupLRU σ k with
  | none => σ
  | some v => { σ with items := σ.items.filter (fun p => !(p.1 == k)) ++ [(k, v)] }

/-- `__setitem__`: move-or-append the key as most recent, then evict the
single least-recently-used entry when over capacity. -/
def setItemLRU {α : Type} (σ : LRUCacheDict α) (k : String) (v : α) :
    LRUCacheDict α :=
  let its := σ.items.filter (fun p => !(p.1 == k)) ++ [(k, v)]
  { σ with items := if σ.capacity < its.length then its.drop 1 else its }

/-- In-place mutation of the entry object aliased from the cache: the value
stored at the key changes without any recency or size effect. -/
def replaceValue {α : Type} (σ : LRUCacheDict α) (k : String) (v : α) :
    LRUCacheDict α :=
  { σ with items := σ.items.map (fun p => if p.1 == k then (k, v) else p) }

/-- An empty cache of the given capacity. -/
def emptyLRU (α : Type) (cap : Nat) : LRUCacheDict α := ⟨cap, []⟩

/-- Modelled from the spec: `BERT_FEATURE_DIM` (module `Utils/Constants.py`,
not among the sources); the fixed semantic-feature width, 1024 per the
source's shape comment on the BERT hidden state. -/
def bertFeatureDim : Nat := 1024

/-- A matrix of numeric features (floats abstracted as integers). -/
abbrev Mat := List (List Int)

/-- An all-zero feature matrix (`np.zeros((rows, cols))`). -/
def zeroMat (rows cols : Nat) : Mat :=
  List.replicate rows (List.replicate cols 0)

/-- The fields of a `ReferenceAudio` instance.  `phonemesSeq` holds the id
row of the `(1, n)` array; audio buffers are opaque handles.  `Option`
fields start as `none` (the source's `None`); `initialized` is the
`_initialized` marker attribute. -/
structure RAEntry where
  text : String
  language : String
  phonemesSeq : Option (List Nat)
  textBert : Option Mat
  audio32k : Option Nat
  sslContent : Option Nat
  initialized : Bool
deriving DecidableEq, Repr

/-- The freshly allocated instance produced by `super().__new__(cls)`:
no attribute is set yet (the placeholder text/language are unobservable,
since `__init__` assigns them before any fallible operation). -/
def blankRA : RAEntry := ⟨"", "", none, none, none, none, false⟩

/-- External collaborators of `ReferenceAudio`, each able to raise
(`Except` with an opaque error code): `japanese_to_phones` /
`chinese_to_phones` with their engines, the BERT tokenizer+session
(producing `last_hidden_state[0]`), `load_audio`, `soxr.resample`, and the
lazily-loaded `cn_hubert` encoder. -/
structure RACollab where
  phonJa : String → Except Nat (List Nat)
  phonZh : String → Except Nat (List Nat)
  bertRaw : String → Except Nat Mat
  loadAudio : String → Except Nat Nat
  resample : Nat → Nat
  hubert : Nat → Except Nat Nat

/-- `ReferenceAudio._extract_bert_features` after the model call: truncate
the hidden-state rows to the phoneme-sequence length, or pad with zero
rows. -/
def extractBertFeatures (C : RACollab) (targetLen : Nat) (t : String) :
    Except Nat Mat :=
  (C.bertRaw t).map (fun feats =>
    if targetLen ≤ feats.length then feats.take targetLen
    else feats ++ zeroMat (targetLen - feats.length) bertFeatureDim)

/-- `ReferenceAudio.set_text`, with Python's exception-plus-mutation
semantics: the returned entry is the state after the assignments that ran,
and the second component is the raised error, if any.  Note `text` and
`language` are assigned before phonemization. -/
def setTextRA (C : RACollab) (e : RAEntry) (t l : String) :
    RAEntry × Option Nat :=
  let e := { e with text := t, language := l }
  if l = "zh" then
    match C.phonZh t with
    | .error err => (e, some err)
    | .ok ids =>
      let e := { e with phonemesSeq := some ids }
      match extractBertFeatures C ids.length t with
      | .error err => (e, some err)
      | .ok m => ({ e with textBert := some m }, none)
  else
    match C.phonJa t with
    | .error err => (e, some err)
    | .ok ids =>
      ({ e with phonemesSeq := some ids,
                textBert := some (zeroMat ids.length bertFeatureDim) }, none)

/-- The attribute assignments at the start of a fresh `__init__`
(`self.text`, `self.phonemes_seq = None`, `self.text_bert = None`,
`self.language`), before `set_text` is called. -/
def resetRA (e : RAEntry) (t l : String) : RAEntry :=
  { e with text := t, phonemesSeq := none, textBert := none, language := l }

/-- `ReferenceAudio.__init__`: early return when already initialized;
otherwise assign the text fields, run `set_text`, load the 32 kHz audio,
resample and encode it, and only then set the initialized marker. -/
def initRA (C : RACollab) (e : RAEntry) (wav t l : String) :
    RAEntry × Option Nat :=
  if e.initialized then (e, none)
  else
    let e := resetRA e t l
    match setTextRA C e t l with
    | (e₁, some err) => (e₁, some err)
    | (e₁, none) =>
      match C.loadAudio wav with
      | .error err => (e₁, some err)
      | .ok a =>
        let e₂ := { e₁ with audio32k := some a }
        match C.hubert (C.resample a) with
        | .error err => (e₂, some err)
        | .ok s => ({ e₂ with sslContent := some s, initialized := true }, none)

/-- `ReferenceAudio.__new__`: a present key's entry is fetched (refreshing
recency) and, if text or language differ, mutated in place by `set_text`;
an absent key gets the blank instance inserted into the cache before this
method returns, i.e. before any initialization work. -/
def newRA (C : RACollab) (σ : LRUCacheDict RAEntry) (wav t l : String) :
    LRUCacheDict RAEntry × Except Nat RAEntry :=
  match lookupLRU σ wav with
  | some inst =>
    let σ := touchLRU σ wav
    if inst.text ≠ t ∨ inst.language ≠ l then
      match setTextRA C inst t l with
      | (inst₁, some err) => (replaceValue σ wav inst₁, .error err)
      | (inst₁, none) => (replaceValue σ wav inst₁, .ok inst₁)
    else (σ, .ok inst)
  | none => (setItemLRU σ wav blankRA, .ok blankRA)

/-- A full `ReferenceAudio(wav, text, language)` constructor call:
`__new__`, then — when it returned normally — `__init__` on the returned
(cached, aliased) instance; mutations are visible through the cache even
when an exception propagates. -/
def requestRA (C : RACollab) (σ : LRUCacheDict RAEntry) (wav t l : String) :
    LRUCacheDict RAEntry × Except Nat RAEntry :=
  match newRA C σ wav t l with
  | (σ₁, .error err) => (σ₁, .error err)
  | (σ₁, .ok inst) =>
    match initRA C inst wav t l with
    | (inst₁, some err) => (replaceValue σ₁ wav inst₁, .error err)
    | (inst₁, none) => (replaceValue σ₁ wav inst₁, .ok inst₁)

/-! ## Lemmas: the content/mark segmentation -/

theorem splitMarks_fst_ne_nil (p : Char → Bool) (s : List Char) :
    (splitMarks p s).1 ≠ [] := by
  induction s with
  | nil => simp [splitMarks]
  | cons c rest ih =>
    simp only [splitMarks]
    split
    · simp
    · rcases h : splitMarks p rest with ⟨segs, ms⟩
      cases segs with
      | nil => simp
      | cons s ss => simp

theorem splitMarks_length (p : Char → Bool) (s : List Char) :
    (splitMarks p s).1.length = (splitMarks p s).2.length + 1 := by
  induction s with
  | nil => simp [splitMarks]
  | cons c rest ih =>
    simp only [splitMarks]
    split
    · simpa using ih
    · rcases h : splitMarks p rest with ⟨segs, ms⟩
      rw [h] at ih
      cases segs with
      | nil => exact absurd h (by intro hh; exact splitMarks_fst_ne_nil p rest (by rw [hh]))
      | cons s ss => simpa using ih

theorem interleave_cons (c : Char) (s : List Char) (ss : List (List Char))
    (ms : List Char) :
    interleave ((c :: s) :: ss) ms = c :: interleave (s :: ss) ms := by
  cases ms <;> simp [interleave]

theorem interleave_splitMarks (p : Char → Bool) (s : List Char) :
    interleave (splitMarks p s).1 (splitMarks p s).2 = s := by
  induction s with
  | nil => simp [splitMarks, interleave]
  | cons c rest ih =>
    simp only [splitMarks]
    split
    · simpa [interleave] using ih
    · rcases h : splitMarks p rest with ⟨segs, ms⟩
      rw [h] at ih
      cases segs with
      | nil => exact absurd h (by intro hh; exact splitMarks_fst_ne_nil p rest (by rw [hh]))
      | cons s₀ ss => simpa [interleave_cons] using ih

theorem splitMarks_content (p : Char → Bool) (s : List Char) :
    ∀ seg ∈ (splitMarks p s).1, ∀ c ∈ seg, p c = false := by
  induction s with
  | nil => simp [splitMarks]
  | cons c rest ih =>
    simp only [splitMarks]
    split
    · next hpc =>
      intro seg hseg
      rcases List.mem_cons.mp hseg with h | h
      · simp [h]
      · exact ih seg h
    · next hpc =>
      rcases h : splitMarks p rest with ⟨segs, ms⟩
      rw [h] at ih
      cases segs with
      | nil => exact absurd h (by intro hh; exact splitMarks_fst_ne_nil p rest (by rw [hh]))
      | cons s₀ ss =>
        intro seg hseg
        rcases List.mem_cons.mp hseg with hs | hs
        · subst hs
          intro x hx
          rcases List.mem_cons.mp hx with hx | hx
          · subst hx; simpa using hpc
          · exact ih s₀ (List.mem_cons_self _ _) x hx
        · exact ih seg (List.mem_cons_of_mem _ hs)

theorem splitMarks_marks (p : Char → Bool) (s : List Char) :
    ∀ m ∈ (splitMarks p s).2, p m = true := by
  induction s with
  | nil => simp [splitMarks]
  | cons c rest ih =>
    simp only [splitMarks]
    split
    · next hpc =>
      intro m hm
      rcases List.mem_cons.mp hm with h | h
      · subst h; exact hpc
      · exact ih m h
    · rcases h : splitMarks p rest with ⟨segs, ms⟩
      rw [h] at ih
      cases segs with
      | nil => exact absurd h (by intro hh; exact splitMarks_fst_ne_nil p rest (by rw [hh]))
      | cons s₀ ss => simpa using ih

/-- The `japanese_segments` of `JapaneseG2P.g2p`. -/
def jaSegsOf (text : String) : List (List Char) :=
  (splitMarks (fun c => !(isJaChar c)) (textNormalize text.data)).1

/-- The `punctuation_marks` of `JapaneseG2P.g2p`. -/
def jaMarksOf (text : String) : List Char :=
  (splitMarks (fun c => !(isJaChar c)) (textNormalize text.data)).2

/-! ## Claim C1 -/

/-- C1 counterexample: the non-blank input `"日"` (a CJK ideograph, i.e.
kanji) is routed by `JapaneseG2P.g2p` to the Chinese romanization branch
(`_chinese_g2p`), not the Japanese label pipeline: with collaborators under
which the two paths visibly differ, the output is the pinyin decomposition
`["r", "i4"]`, while the Japanese label pipeline would produce
`["n", "i"]`.  This refutes the claim that text containing kanji is
processed by the Japanese front-end label pipeline. -/
theorem c1_counterexample :
    pyStrip "日".data ≠ [] ∧
    is_chinese "日" = true ∧
    g2p ⟨fun _ => ["x-sil+x", "x-n+x", "x-i+x", "x-sil+x"], fun _ => "",
         fun _ => ["ri4"], fun _ => "r", fun _ => "i"⟩ true "日" =
      some ["r", "i4"] ∧
    jaPipeline ⟨fun _ => ["x-sil+x", "x-n+x", "x-i+x", "x-sil+x"], fun _ => "",
         fun _ => ["ri4"], fun _ => "r", fun _ => "i"⟩ true "日" =
      some ["n", "i"] ∧
    (some ["r", "i4"] : Option (List String)) ≠ some ["n", "i"] := by
  refine ⟨by decide, by decide, by decide, by decide, by decide⟩

/-- C1 (amended): for every non-blank input containing no CJK ideograph in
U+4E00–U+9FA5, `JapaneseG2P.g2p` runs the Japanese pipeline: the normalized
text is segmented into alternating Japanese-script content spans and
single-character mark spans — a lossless, order-preserving partition where
content spans consist solely of Japanese-script characters and marks are
exactly the non-Japanese-script characters — and the phones are derived by
interleaving the per-segment label-pipeline output with the marks.  Text
that does contain such an ideograph is instead routed to Chinese
romanization (see the counterexample). -/
theorem c1_theorem (C : G2PCollab) (text : String)
    (hblank : pyStrip text.data ≠ []) (hzh : is_chinese text = false) :
    g2p C true text = jaPipeline C true text ∧
    interleave (jaSegsOf text) (jaMarksOf text) = textNormalize text.data ∧
    (jaSegsOf text).length = (jaMarksOf text).length + 1 ∧
    (∀ seg ∈ jaSegsOf text, ∀ ch ∈ seg, isJaChar ch = true) ∧
    (∀ m ∈ jaMarksOf text, isJaChar m = false) ∧
    jaPipeline C true text =
      (jaInterleave C true (jaSegsOf text) (jaMarksOf text)).map
        (List.map postReplace) := by
  refine ⟨?_, ?_, ?_, ?_, ?_, ?_⟩
  · simp [g2p, hblank, hzh]
  · exact interleave_splitMarks _ _
  · exact splitMarks_length _ _
  · intro seg hseg ch hch
    have := splitMarks_content (fun c => !(isJaChar c)) (textNormalize text.data)
      seg hseg ch hch
    simpa using this
  · intro m hm
    have := splitMarks_marks (fun c => !(isJaChar c)) (textNormalize text.data) m hm
    simpa using this
  · rfl

/-- C1 witness: the amended theorem applied to the concrete non-blank,
ideograph-free input `"あ!"`. -/
theorem c1_witness :
    g2p ⟨fun _ => ["x-sil+x", "x-a+x", "x-sil+x"], fun _ => "", fun _ => [],
         fun _ => "", fun _ => ""⟩ true "あ!" =
      jaPipeline ⟨fun _ => ["x-sil+x", "x-a+x", "x-sil+x"], fun _ => "",
         fun _ => [], fun _ => "", fun _ => ""⟩ true "あ!" ∧
    interleave (jaSegsOf "あ!") (jaMarksOf "あ!") = textNormalize "あ!".data :=
  ⟨(c1_theorem _ "あ!" (by decide) (by decide)).1,
   (c1_theorem ⟨fun _ => ["x-sil+x", "x-a+x", "x-sil+x"], fun _ => "",
      fun _ => [], fun _ => "", fun _ => ""⟩ "あ!" (by decide) (by decide)).2.1⟩

/-! ## Claim C6 -/

theorem dropWhile_eq_self_of_all_false (p : Char → Bool) (l : List Char)
    (h : ∀ c ∈ l, p c = false) : l.dropWhile p = l := by
  cases l with
  | nil => rfl
  | cons c rest => simp [List.dropWhile, h c (List.mem_cons_self _ _)]

theorem pyStrip_eq_self (s : List Char) (h : ∀ c ∈ s, isPySpace c = false) :
    pyStrip s = s := by
  unfold pyStrip
  rw [dropWhile_eq_self_of_all_false _ _ h,
      dropWhile_eq_self_of_all_false _ _ (by
        intro c hc
        exact h c (List.mem_reverse.mp hc)),
      List.reverse_reverse]

theorem splitAfterTerm_ne_nil (s : List Char) : splitAfterTerm s ≠ [] := by
  induction s with
  | nil => simp [splitAfterTerm]
  | cons c rest ih =>
    simp only [splitAfterTerm]
    split
    · simp
    · cases h : splitAfterTerm rest with
      | nil => exact absurd h ih
      | cons s₀ ss => simp

theorem splitAfterTerm_flatten (s : List Char) :
    (splitAfterTerm s).flatten = s := by
  induction s with
  | nil => simp [splitAfterTerm]
  | cons c rest ih =>
    simp only [splitAfterTerm]
    split
    · simpa using ih
    · cases h : splitAfterTerm rest with
      | nil => exact absurd h (splitAfterTerm_ne_nil rest)
      | cons s₀ ss =>
        rw [h] at ih
        simpa using ih

theorem mem_of_mem_splitAfterTerm (s span : List Char) (c : Char)
    (hspan : span ∈ splitAfterTerm s) (hc : c ∈ span) : c ∈ s := by
  have : c ∈ (splitAfterTerm s).flatten := List.mem_flatten.mpr ⟨span, hspan, hc⟩
  rwa [splitAfterTerm_flatten] at this

theorem flatten_filter_ne_nil (l : List (List Char)) :
    (l.filter (fun s => s ≠ [])).flatten = l.flatten := by
  induction l with
  | nil => rfl
  | cons s rest ih =>
    rw [List.filter_cons]
    by_cases h : s = []
    · rw [if_neg (by simp [h])]
      subst h
      simpa using ih
    · rw [if_pos (by simp [h])]
      simp only [List.flatten_cons]
      rw [ih]

theorem map_eq_self_of (l : List (List Char)) (f : List Char → List Char)
    (h : ∀ x ∈ l, f x = x) : l.map f = l := by
  induction l with
  | nil => rfl
  | cons a rest ih =>
    simp [h a (List.mem_cons_self _ _),
          ih (fun x hx => h x (List.mem_cons_of_mem _ hx))]

/-- C6 counterexample: on the all-whitespace (non-empty) input `" "`, the
raw chunk list of `split_chinese_text` (before the merge step) is empty,
so concatenating the chunks yields `""`, not the original text: the split
is not lossless.  (The merged `split_chinese_text` output is also empty.) -/
theorem c6_counterexample :
    rawChunks " ".data = [] ∧
    (rawChunks " ".data).flatten ≠ " ".data ∧
    split_chinese_text " " = [] ∧
    String.join (split_chinese_text " ") ≠ " " := by
  refine ⟨by decide, by decide, by decide, by decide⟩

/-- C6 (amended): no chunk produced by the sentence-chunking split
(before the short-chunk merge) has zero length; the terminator-delimited
spans partition the original text losslessly, and concatenating the
chunks yields the concatenation of those spans with each span's leading
and trailing whitespace stripped — so whitespace at span boundaries is
the only loss.  In particular, for every input containing no whitespace
character the concatenation reconstructs the original text (the
counterexample shows a whitespace input where reconstruction fails). -/
theorem c6_theorem (t : String) :
    (∀ ch ∈ rawChunks t.data, ch ≠ []) ∧
    (splitAfterTerm t.data).flatten = t.data ∧
    (rawChunks t.data).flatten =
      ((splitAfterTerm t.data).map pyStrip).flatten ∧
    ((∀ c ∈ t.data, isPySpace c = false) →
      (rawChunks t.data).flatten = t.data) := by
  refine ⟨?_, splitAfterTerm_flatten t.data, ?_, ?_⟩
  · intro ch hch
    exact of_decide_eq_true (List.mem_filter.mp hch).2
  · unfold rawChunks
    rw [flatten_filter_ne_nil]
  · intro hns
    unfold rawChunks
    rw [flatten_filter_ne_nil]
    have heq : (splitAfterTerm t.data).map pyStrip = splitAfterTerm t.data :=
      map_eq_self_of _ _ (fun span hspan =>
        pyStrip_eq_self span (fun c hc =>
          hns c (mem_of_mem_splitAfterTerm _ _ _ hspan hc)))
    rw [heq, splitAfterTerm_flatten]

/-- C6 witness: the amended theorem applied to `"a。b！c"`, a whitespace-free
input with two terminators; its chunks are nonempty and concatenate back to
the input. -/
theorem c6_witness :
    (∀ ch ∈ rawChunks "a。b！c".data, ch ≠ []) ∧
    (rawChunks "a。b！c".data).flatten = "a。b！c".data :=
  ⟨( c6_theorem "a。b！c").1, ( c6_theorem "a。b！c").2.2.2 (by decide)⟩

/-! ## Claims C7 and C8: the prosody label derivation -/

theorem matchClassAt_spec (pre : List Char) (cls : Char → Bool) (d : Char)
    (s cap : List Char) (h : matchClassAt pre cls d s = some cap) :
    cap ≠ [] ∧ ∀ c ∈ cap, cls c = true := by
  unfold matchClassAt at h
  split at h
  · dsimp only at h
    split at h
    · next hcond =>
      injection h with h
      subst h
      exact ⟨hcond.1, fun c hc => List.mem_takeWhile_imp hc⟩
    · exact absurd h (by simp)
  · exact absurd h (by simp)

theorem findClassRun_spec (pre : List Char) (cls : Char → Bool) (d : Char) :
    ∀ (s cap : List Char), findClassRun pre cls d s = some cap →
      cap ≠ [] ∧ ∀ c ∈ cap, cls c = true := by
  intro s
  induction s with
  | nil => intro cap h; simp [findClassRun] at h
  | cons c rest ih =>
    intro cap h
    rw [findClassRun] at h
    revert h
    cases hm : matchClassAt pre cls d (c :: rest) with
    | some r =>
      intro h
      injection h with h
      subst h
      exact matchClassAt_spec pre cls d _ _ hm
    | none => exact ih cap

theorem pyInt_digits (cap : List Char) (hne : cap ≠ [])
    (hall : ∀ c ∈ cap, c.isDigit = true) :
    ∃ n : Nat, pyInt cap = some (n : Int) := by
  cases cap with
  | nil => exact absurd rfl hne
  | cons c rest =>
    have hc : c.isDigit = true := hall c (List.mem_cons_self _ _)
    have hcm : c ≠ '-' := by
      intro hw
      subst hw
      simp [Char.isDigit] at hc
    simp only [pyInt]
    rw [if_neg hcm]
    unfold parseDigits
    rw [if_pos ⟨by simp, by simpa [List.all_eq_true] using hall⟩]
    exact ⟨_, rfl⟩

/-- A digit-class numeric feature is always defined, and is either the −50
sentinel or a non-negative value. -/
theorem digitFeature_spec (pre : List Char) (d : Char) (s : List Char) :
    ∃ v : Int, numericFeatureBy pre Char.isDigit d s = some v ∧
      (v = -50 ∨ 0 ≤ v) := by
  unfold numericFeatureBy
  cases hf : findClassRun pre Char.isDigit d s with
  | none => exact ⟨-50, rfl, Or.inl rfl⟩
  | some cap =>
    obtain ⟨hne, hall⟩ := findClassRun_spec pre Char.isDigit d s cap hf
    obtain ⟨n, hn⟩ := pyInt_digits cap hne hall
    exact ⟨n, hn, Or.inr (Int.natCast_nonneg n)⟩

theorem featA2_spec (s : List Char) : ∃ v : Int, featA2 s = some v ∧
    (v = -50 ∨ 0 ≤ v) := digitFeature_spec _ _ _

theorem featA2_range (s : List Char) (v : Int) (h : featA2 s = some v) :
    v = -50 ∨ 0 ≤ v := by
  obtain ⟨w, hw, hr⟩ := featA2_spec s
  rw [hw] at h
  injection h with h
  subst h
  exact hr

theorem featE3_spec (s : List Char) : ∃ v : Int, featE3 s = some v :=
  (digitFeature_spec _ _ _).imp (fun _ h => h.1)

/-- C7 counterexample: on a single-label stream whose (only and therefore
also last) label is silence with end-tone feature `e3 = 1`, the code emits
the start-of-utterance marker `"^"` — the `n == 0` branch wins — and not
the rising-end marker `"?"` the claim requires for a last silence label
with `e3 = 1`. -/
theorem c7_counterexample :
    p3Of "a-sil+b!1_".data = some "sil" ∧
    featE3 "a-sil+b!1_".data = some 1 ∧
    pyProsody ["a-sil+b!1_".data] = some ["^"] ∧
    (some ["^"] : Option (List String)) ≠ some ["?"] ∧
    (some ["^"] : Option (List String)) ≠ some ["$"] := by
  refine ⟨by decide, by decide, by decide, by decide, by decide⟩

/-- C7 (amended): in the label-based derivation, a silence label emits the
start-of-utterance marker iff it is the first label; the last label, if
silence *and not also the first* (the first-label case wins in a
single-label stream, see the counterexample), emits the rising-end marker
when the extracted end-tone feature equals 1 and the plain end marker
otherwise; silence labels in any other position emit nothing; and the
first and last elements of each per-segment result are stripped
(`[1:-1]`) before concatenation. -/
theorem c7_theorem (labs : List (List Char)) (n : Nat) (lab : List Char)
    (hn : labs.get? n = some lab) (hsil : p3Of lab = some "sil") :
    (prosodyEmit labs n = some ["^"] ↔ n = 0) ∧
    (n ≠ 0 → n = labs.length - 1 →
      prosodyEmit labs n =
        (featE3 lab).map (fun e3 => [if e3 = 1 then "?" else "$"])) ∧
    (n ≠ 0 → n ≠ labs.length - 1 → prosodyEmit labs n = some []) ∧
    (∀ (fe : String → List String) (seg : String),
      jaSegPhones fe seg =
        (pyProsody ((fe seg).map String.data)).map
          (fun ph => (ph.drop 1).dropLast)) := by
  have hred : prosodyEmit labs n =
      (if n = 0 then some ["^"]
       else if n = labs.length - 1 then
         (featE3 lab).map (fun e3 => [if e3 = 1 then "?" else "$"])
       else some []) := by
    unfold prosodyEmit
    rw [hn]
    dsimp only
    rw [hsil]
    dsimp only
    rw [if_pos rfl]
  refine ⟨?_, ?_, ?_, fun _ _ => rfl⟩
  · rw [hred]
    constructor
    · intro h
      by_contra hn0
      rw [if_neg hn0] at h
      by_cases hlast : n = labs.length - 1
      · rw [if_pos hlast] at h
        obtain ⟨v, hv⟩ := featE3_spec lab
        rw [hv] at h
        replace h : some [if v = 1 then "?" else "$"] = some ["^"] := h
        injection h with h
        by_cases hv1 : v = 1
        · rw [if_pos hv1] at h
          exact absurd (List.head_eq_of_cons_eq h) (by decide)
        · rw [if_neg hv1] at h
          exact absurd (List.head_eq_of_cons_eq h) (by decide)
      · rw [if_neg hlast] at h
        exact absurd h (by simp)
    · intro h
      rw [if_pos h]
  · intro h0 hlast
    rw [hred, if_neg h0, if_pos hlast]
  · intro h0 hlast
    rw [hred, if_neg h0, if_neg hlast]

/-- C7 witness: the amended theorem applied to a concrete four-label stream
with an interior silence label, which emits nothing. -/
theorem c7_witness :
    prosodyEmit ["x-sil+x".data, "q-sil+x".data, "x-a+x".data,
      "x-sil+x".data] 1 = some [] :=
  ( c7_theorem ["x-sil+x".data, "q-sil+x".data, "x-a+x".data, "x-sil+x".data]
    1 "q-sil+x".data (by decide) (by decide)).2.2.1 (by decide) (by decide)

/-- C8 counterexample: for the label `x-a+x/A:0+3+5` the `/F:` feature is
absent (`f1 = −50`), yet the pitch-fall marker `"]"` *is* emitted after the
phone `a` — because the pitch-fall test `a2 != f1` is a disequality that an
absent `f1` satisfies.  With the feature present and equal (`/F:3_`), no
marker is emitted.  So the decision does not treat −50 as "condition not
met": a marker is emitted on account of an absent feature. -/
theorem c8_counterexample :
    featF1 "x-a+x/A:0+3+5".data = some (-50) ∧
    pyProsody ["x-sil+x".data, "x-a+x/A:0+3+5".data, "x-i+x+4+x".data,
      "x-sil+x".data] = some ["^", "a", "]", "i", "$"] ∧
    pyProsody ["x-sil+x".data, "x-a+x/A:0+3+5/F:3_x".data, "x-i+x+4+x".data,
      "x-sil+x".data] = some ["^", "a", "i", "$"] := by
  refine ⟨by decide, by decide, by decide⟩

/-- C8 (amended): for every non-silence, non-pause label, at most one
boundary marker is appended, chosen by first-match priority in the order
accent-phrase-final, pitch-fall, pitch-rise; an absent positional feature
takes the sentinel −50, which never satisfies any *equality* condition of
the three tests — but the pitch-fall condition also contains the
disequality `a2 ≠ f1`, which an absent `f1` satisfies whenever `a2` is
present, so a pitch-fall marker can be emitted for a label whose `/F:`
feature is absent (see the counterexample). -/
theorem c8_theorem (labs : List (List Char)) (n : Nat) (lab : List Char)
    (p3 : String) (a1 a2 a3 f1 a2n : Int)
    (hn : labs.get? n = some lab) (hp3 : p3Of lab = some p3)
    (hsil : p3 ≠ "sil") (hpau : p3 ≠ "pau")
    (h1 : featA1 lab = some a1) (h2 : featA2 lab = some a2)
    (h3 : featA3 lab = some a3) (h4 : featF1 lab = some f1)
    (h5 : featA2 ((labs.get? (n + 1)).getD []) = some a2n) :
    ∃ marks : List String,
      prosodyEmit labs n = some (p3 :: marks) ∧
      marks =
        (if a3 = 1 ∧ a2n = 1 ∧ isSubstrOf p3.data ("aeiouAEIOUNcl".data) then
           ["#"]
         else if a1 = 0 ∧ a2n = a2 + 1 ∧ a2 ≠ f1 then ["]"]
         else if a2 = 1 ∧ a2n = 2 then ["["]
         else []) ∧
      marks.length ≤ 1 ∧
      ((a3 = -50 ∨ a2n = -50) → "#" ∉ marks) ∧
      (a1 = -50 → "]" ∉ marks) ∧
      (a2 = -50 → "]" ∉ marks ∧ "[" ∉ marks) ∧
      (a2n = -50 → "]" ∉ marks ∧ "[" ∉ marks) := by
  have hred : prosodyEmit labs n = some (p3 ::
      (if a3 = 1 ∧ a2n = 1 ∧ isSubstrOf p3.data ("aeiouAEIOUNcl".data) then
         ["#"]
       else if a1 = 0 ∧ a2n = a2 + 1 ∧ a2 ≠ f1 then ["]"]
       else if a2 = 1 ∧ a2n = 2 then ["["]
       else [])) := by
    unfold prosodyEmit
    rw [hn]
    dsimp only
    rw [hp3]
    dsimp only
    rw [if_neg hsil, if_neg hpau, h1, h2, h3, h4]
    dsimp only
    rw [h5]
    dsimp only
    split
    · rfl
    · split
      · rfl
      · split
        · rfl
        · rfl
  refine ⟨_, hred, rfl, ?_, ?_, ?_, ?_, ?_⟩
  · split
    · simp
    · split
      · simp
      · split
        · simp
        · simp
  · intro hs
    split
    · next hc => rcases hs with hs | hs <;> omega
    · split
      · simp
      · split
        · simp
        · simp
  · intro hs
    split
    · simp
    · split
      · next hc => omega
      · split
        · simp
        · simp
  · intro hs
    have hrange := featA2_range _ _ h5
    split
    · simp
    · split
      · next hc => omega
      · split
        · next hc => omega
        · simp
  · intro hs
    have hrange := featA2_range _ _ h2
    split
    · simp
    · split
      · next hc => omega
      · split
        · next hc => omega
        · simp

/-- C8 witness: the amended theorem applied to the counterexample's label
in its stream, showing exactly one marker is emitted there. -/
theorem c8_witness :
    ∃ marks : List String,
      prosodyEmit ["x-sil+x".data, "x-a+x/A:0+3+5".data, "x-i+x+4+x".data,
        "x-sil+x".data] 1 = some ("a" :: marks) ∧ marks.length ≤ 1 := by
  obtain ⟨marks, hm, -, hlen, -⟩ :=
    c8_theorem ["x-sil+x".data, "x-a+x/A:0+3+5".data, "x-i+x+4+x".data,
      "x-sil+x".data] 1 "x-a+x/A:0+3+5".data "a" 0 3 (-50) (-50) 4
      (by decide) (by decide) (by decide) (by decide) (by decide) (by decide)
      (by decide) (by decide) (by decide)
  exact ⟨marks, hm, hlen⟩

/-! ## Claim C9 -/

theorem toPhonesIds_spec (table : String → Option Nat) (u : Nat)
    (hUNK : table "UNK" = some u) :
    ∀ phs : List String, ∃ ids : List Nat,
      toPhonesIds table phs = some ids ∧ ids.length = phs.length ∧
      ∀ i < phs.length, ids.get? i = some ((table (phs.getD i "")).getD u) := by
  intro phs
  induction phs with
  | nil => exact ⟨[], rfl, rfl, by intro i h; simp at h⟩
  | cons ph rest ih =>
    obtain ⟨ids, hids, hlen, hget⟩ := ih
    have hhead :
        (match table ph with
          | some i => some i
          | none => table "UNK") = some ((table ph).getD u) := by
      cases h : table ph with
      | some i => rfl
      | none => simpa using hUNK
    refine ⟨(table ph).getD u :: ids, ?_, by simpa using hlen, ?_⟩
    · unfold toPhonesIds at hids ⊢
      rw [List.mapM_cons, hhead, hids]
      rfl
    · intro i hi
      cases i with
      | zero => rfl
      | succ j =>
        simp only [List.get?, List.getD, List.length_cons] at hi ⊢
        exact hget j (by omega)

/-- C9: for every symbol sequence, id encoding maps each symbol to its
table id, substituting the reserved unknown id (`table "UNK"`) for every
symbol outside the vocabulary; encoding never raises (it always returns a
value), and the output has the same length as the input.  The last two
conjuncts instantiate this for the two phonemizer entry points
`chinese_to_phones` and `japanese_to_phones`. -/
theorem c9_theorem (table : String → Option Nat) (u : Nat)
    (hUNK : table "UNK" = some u) :
    (∀ phs : List String, ∃ ids : List Nat,
      toPhonesIds table phs = some ids ∧ ids.length = phs.length ∧
      ∀ i < phs.length, ids.get? i = some ((table (phs.getD i "")).getD u)) ∧
    (∀ (C : G2PCollab) (text : String), ∃ ids : List Nat,
      chinese_to_phones C table text = some ids ∧
      ids.length = (zhG2P C text).length) ∧
    (∀ (C : G2PCollab) (text : String) (phs : List String),
      g2p C true text = some phs → ∃ ids : List Nat,
      japanese_to_phones C table text = some ids ∧
      ids.length = phs.length) := by
  refine ⟨toPhonesIds_spec table u hUNK, ?_, ?_⟩
  · intro C text
    obtain ⟨ids, hids, hlen, -⟩ := toPhonesIds_spec table u hUNK (zhG2P C text)
    exact ⟨ids, hids, hlen⟩
  · intro C text phs hphs
    obtain ⟨ids, hids, hlen, -⟩ := toPhonesIds_spec table u hUNK phs
    refine ⟨ids, ?_, hlen⟩
    unfold japanese_to_phones
    rw [hphs]
    exact hids

/-- C9 witness: the theorem applied to a concrete two-symbol table and a
sequence containing an out-of-vocabulary symbol. -/
theorem c9_witness :
    ∃ ids : List Nat,
      toPhonesIds (fun s => if s = "UNK" then some 0
        else if s = "a" then some 5 else none) ["a", "zz"] = some ids ∧
      ids.length = 2 := by
  obtain ⟨ids, hids, hlen, -⟩ :=
    (c9_theorem (fun s => if s = "UNK" then some 0
      else if s = "a" then some 5 else none) 0 rfl).1 ["a", "zz"]
  exact ⟨ids, hids, hlen⟩

/-! ## Claim C5: LRU eviction -/

theorem filter_ne_key_eq_self {α : Type} (items : List (String × α))
    (k : String) (h : ∀ p ∈ items, p.1 ≠ k) :
    items.filter (fun p => !(p.1 == k)) = items := by
  apply List.filter_eq_self.mpr
  intro p hp
  simpa using h p hp

theorem setItemLRU_fresh_items {α : Type} (σ : LRUCacheDict α) (k : String)
    (v : α) (h : ∀ p ∈ σ.items, p.1 ≠ k) :
    (setItemLRU σ k v).items =
      (if σ.capacity < σ.items.length + 1 then
        (σ.items ++ [(k, v)]).drop 1 else σ.items ++ [(k, v)]) := by
  unfold setItemLRU
  rw [filter_ne_key_eq_self σ.items k h]
  simp

theorem setItemLRU_capacity {α : Type} (σ : LRUCacheDict α) (k : String)
    (v : α) : (setItemLRU σ k v).capacity = σ.capacity := rfl

theorem drop_one_append {α : Type} (l r : List α) (m : Nat) (hl : l ≠ []) :
    (l.drop 1 ++ r).drop m = (l ++ r).drop (m + 1) := by
  have h1 : (l ++ r).drop (m + 1) = ((l ++ r).drop 1).drop m := by
    rw [List.drop_drop]
    congr 1
    omega
  have h2 : (l ++ r).drop 1 = l.drop 1 ++ r :=
    List.drop_append_of_le_length (by
      cases l with
      | nil => exact absurd rfl hl
      | cons a t => simp)
  rw [h1, h2]

theorem foldl_setItem_fresh {α : Type} (f : String → α) :
    ∀ (ks : List String) (σ : LRUCacheDict α),
      ks.Nodup →
      (∀ k ∈ ks, ∀ p ∈ σ.items, p.1 ≠ k) →
      σ.items.length ≤ σ.capacity →
      (ks.foldl (fun σ k => setItemLRU σ k (f k)) σ).capacity = σ.capacity ∧
      (ks.foldl (fun σ k => setItemLRU σ k (f k)) σ).items =
        (σ.items ++ ks.map (fun k => (k, f k))).drop
          (σ.items.length + ks.length - σ.capacity) := by
  intro ks
  induction ks with
  | nil =>
    intro σ _ _ hlen
    constructor
    · rfl
    · have h0 : σ.items.length - σ.capacity = 0 := by omega
      simp [h0]
  | cons k rest ih =>
    intro σ hnd hfresh hlen
    have hkfresh : ∀ p ∈ σ.items, p.1 ≠ k :=
      hfresh k (List.mem_cons_self _ _)
    have hknotin : k ∉ rest := (List.nodup_cons.mp hnd).1
    have hndrest : rest.Nodup := (List.nodup_cons.mp hnd).2
    rw [List.foldl_cons]
    by_cases hlt : σ.items.length < σ.capacity
    · have hnoev : ¬ σ.capacity < σ.items.length + 1 := by omega
      have hitems : (setItemLRU σ k (f k)).items = σ.items ++ [(k, f k)] := by
        rw [setItemLRU_fresh_items σ k (f k) hkfresh, if_neg hnoev]
      have hfresh' : ∀ k' ∈ rest, ∀ p ∈ (setItemLRU σ k (f k)).items, p.1 ≠ k' := by
        intro k' hk' p hp
        rw [hitems] at hp
        rcases List.mem_append.mp hp with hp | hp
        · exact hfresh k' (List.mem_cons_of_mem _ hk') p hp
        · have hpk : p = (k, f k) := List.mem_singleton.mp hp
          rw [hpk]
          intro hkk
          replace hkk : k = k' := hkk
          apply hknotin
          rw [hkk]
          exact hk'
      have hlen' : (setItemLRU σ k (f k)).items.length ≤
          (setItemLRU σ k (f k)).capacity := by
        rw [hitems]
        simpa using hlt
      obtain ⟨hcap2, hit2⟩ := ih (setItemLRU σ k (f k)) hndrest hfresh' hlen'
      rw [setItemLRU_capacity] at hcap2
      refine ⟨hcap2, ?_⟩
      rw [hit2, hitems]
      have hidx : (σ.items ++ [(k, f k)]).length + rest.length -
          (setItemLRU σ k (f k)).capacity =
          σ.items.length + (k :: rest).length - σ.capacity := by
        rw [setItemLRU_capacity]
        simp only [List.length_append, List.length_cons, List.length_nil]
        omega
      rw [hidx, List.map_cons, List.append_assoc, List.singleton_append]
    · have heq : σ.items.length = σ.capacity := by omega
      have hev : σ.capacity < σ.items.length + 1 := by omega
      have hitems : (setItemLRU σ k (f k)).items =
          (σ.items ++ [(k, f k)]).drop 1 := by
        rw [setItemLRU_fresh_items σ k (f k) hkfresh, if_pos hev]
      have hfresh' : ∀ k' ∈ rest, ∀ p ∈ (setItemLRU σ k (f k)).items, p.1 ≠ k' := by
        intro k' hk' p hp
        rw [hitems] at hp
        have hp' : p ∈ σ.items ++ [(k, f k)] := List.mem_of_mem_drop hp
        rcases List.mem_append.mp hp' with hp' | hp'
        · exact hfresh k' (List.mem_cons_of_mem _ hk') p hp'
        · have hpk : p = (k, f k) := List.mem_singleton.mp hp'
          rw [hpk]
          intro hkk
          replace hkk : k = k' := hkk
          apply hknotin
          rw [hkk]
          exact hk'
      have hlen2 : (setItemLRU σ k (f k)).items.length = σ.capacity := by
        rw [hitems, List.length_drop]
        simp [heq]
      have hlen' : (setItemLRU σ k (f k)).items.length ≤
          (setItemLRU σ k (f k)).capacity := by
        rw [hlen2, setItemLRU_capacity]
      obtain ⟨hcap2, hit2⟩ := ih (setItemLRU σ k (f k)) hndrest hfresh' hlen'
      rw [setItemLRU_capacity] at hcap2
      refine ⟨hcap2, ?_⟩
      rw [hit2, hlen2, setItemLRU_capacity, hitems]
      have hidx : σ.capacity + rest.length - σ.capacity = rest.length := by omega
      rw [hidx]
      have hne : σ.items ++ [(k, f k)] ≠ [] := by simp
      rw [drop_one_append _ _ _ hne]
      have hidx2 : σ.items.length + (k :: rest).length - σ.capacity =
          rest.length + 1 := by
        simp only [List.length_cons]
        omega
      rw [hidx2, List.map_cons, List.append_assoc, List.singleton_append]

theorem find?_map_pair_some {α : Type} (f : String → α) (ks : List String)
    (k : String) (hk : k ∈ ks) :
    ((ks.map (fun k => (k, f k))).find? (fun p => p.1 == k)) = some (k, f k) := by
  induction ks with
  | nil => simp at hk
  | cons a rest ih =>
    rw [List.map_cons, List.find?_cons]
    by_cases hak : a = k
    · subst hak
      simp
    · have hb : ((a, f a).1 == k) = false := by simpa using hak
      rw [hb]
      exact ih (by
        rcases List.mem_cons.mp hk with h | h
        · exact absurd h.symm hak
        · exact h)

theorem find?_map_pair_none {α : Type} (f : String → α) (ks : List String)
    (k : String) (hk : k ∉ ks) :
    ((ks.map (fun k => (k, f k))).find? (fun p => p.1 == k)) = none := by
  rw [List.find?_eq_none]
  intro p hp
  obtain ⟨k', hk', hpk⟩ := List.mem_map.mp hp
  rw [← hpk]
  simp only [beq_iff_eq]
  intro hkk
  exact hk (hkk ▸ hk')

/-- C5: inserting `capacity + 1` entries with distinct keys into an empty
cache leaves exactly `capacity` entries, with the first-inserted (least
recently used) key absent and every later key present; and (second
conjunct) inserting a fresh key into any full cache evicts exactly the one
least-recently-used entry: the item list drops its head and appends the new
pair, the size stays at capacity, and the previous oldest key becomes
absent. -/
theorem c5_theorem :
    (∀ (α : Type) (cap : Nat) (k₀ : String) (ks : List String)
      (f : String → α),
      (k₀ :: ks).Nodup → (k₀ :: ks).length = cap + 1 →
      ((k₀ :: ks).foldl (fun σ k => setItemLRU σ k (f k))
          (emptyLRU α cap)).items.length = cap ∧
      lookupLRU ((k₀ :: ks).foldl (fun σ k => setItemLRU σ k (f k))
          (emptyLRU α cap)) k₀ = none ∧
      (∀ k ∈ ks, lookupLRU ((k₀ :: ks).foldl (fun σ k => setItemLRU σ k (f k))
          (emptyLRU α cap)) k = some (f k))) ∧
    (∀ (α : Type) (σ : LRUCacheDict α) (k : String) (v : α),
      σ.items.length = σ.capacity → (∀ p ∈ σ.items, p.1 ≠ k) →
      1 ≤ σ.capacity →
      (setItemLRU σ k v).items = σ.items.drop 1 ++ [(k, v)] ∧
      (setItemLRU σ k v).items.length = σ.capacity ∧
      ((σ.items.map Prod.fst).Nodup → ∀ k₀ v₀,
        σ.items.head? = some (k₀, v₀) →
        lookupLRU (setItemLRU σ k v) k₀ = none)) := by
  constructor
  · intro α cap k₀ ks f hnd hlen
    have hfold := foldl_setItem_fresh f (k₀ :: ks) (emptyLRU α cap) hnd
      (by intro k hk p hp; simp [emptyLRU] at hp) (by simp [emptyLRU])
    obtain ⟨-, hit⟩ := hfold
    have hlen' : (k₀ :: ks).length = cap + 1 := hlen
    have hit' : ((k₀ :: ks).foldl (fun σ k => setItemLRU σ k (f k))
        (emptyLRU α cap)).items = ks.map (fun k => (k, f k)) := by
      rw [hit]
      simp only [emptyLRU, List.nil_append, List.length_nil, Nat.zero_add]
      rw [hlen', List.map_cons]
      have : cap + 1 - cap = 1 := by omega
      rw [this, List.drop_one]
      rfl
    have hklen : ks.length = cap := by
      have := hlen'
      simp at this
      omega
    refine ⟨?_, ?_, ?_⟩
    · rw [hit']
      simp [hklen]
    · unfold lookupLRU
      rw [hit', find?_map_pair_none f ks k₀ (List.nodup_cons.mp hnd).1]
      rfl
    · intro k hk
      unfold lookupLRU
      rw [hit', find?_map_pair_some f ks k hk]
      rfl
  · intro α σ k v hfull hfresh hcap
    have hitems : (setItemLRU σ k v).items = σ.items.drop 1 ++ [(k, v)] := by
      rw [setItemLRU_fresh_items σ k v hfresh, if_pos (by omega)]
      have hne : σ.items ≠ [] := by
        intro hh
        rw [hh] at hfull
        simp at hfull
        omega
      rw [← drop_one_append σ.items [(k, v)] 0 hne]
      simp
    refine ⟨hitems, ?_, ?_⟩
    · rw [hitems]
      simp only [List.length_append, List.length_drop]
      simp [hfull]
      omega
    · intro hndk k₀ v₀ hhead
      have hne : σ.items ≠ [] := by
        intro hh
        rw [hh] at hhead
        simp at hhead
      have hk0k : k₀ ≠ k := by
        intro hh
        have hmem : (k₀, v₀) ∈ σ.items := by
          cases hσ : σ.items with
          | nil => exact absurd hσ hne
          | cons a t =>
            rw [hσ] at hhead
            simp at hhead
            rw [← hhead]
            exact List.mem_cons_self _ _
        exact hfresh (k₀, v₀) hmem hh
      unfold lookupLRU
      rw [hitems, List.find?_append]
      have h1 : (σ.items.drop 1).find? (fun p => p.1 == k₀) = none := by
        rw [List.find?_eq_none]
        intro p hp
        simp only [beq_iff_eq]
        intro hpk
        cases hσ : σ.items with
        | nil => exact absurd hσ hne
        | cons a t =>
          rw [hσ] at hhead hndk hp
          simp only [List.head?_cons] at hhead
          injection hhead with hhead
          simp only [List.map_cons, List.nodup_cons] at hndk
          simp only [List.drop_one, List.tail_cons] at hp
          apply hndk.1
          rw [hhead]
          show k₀ ∈ List.map Prod.fst t
          rw [← hpk]
          exact List.mem_map.mpr ⟨p, hp, rfl⟩
      have h2 : ([(k, v)].find? (fun p => p.1 == k₀)) = none := by
        rw [List.find?_eq_none]
        intro p hp
        have : p = (k, v) := List.mem_singleton.mp hp
        rw [this]
        simpa using fun hh => hk0k hh.symm
      rw [h1, h2]
      rfl

/-- C5 witness: capacity 2, three distinct keys; the first key is evicted
and the cache holds exactly the last two. -/
theorem c5_witness :
    (["a", "b", "c"].foldl
        (fun σ k => setItemLRU σ k ((fun _ => (0 : Nat)) k))
        (emptyLRU Nat 2)).items.length = 2 ∧
    lookupLRU (["a", "b", "c"].foldl
        (fun σ k => setItemLRU σ k ((fun _ => (0 : Nat)) k))
        (emptyLRU Nat 2)) "a" = none := by
  obtain ⟨h1, h2, -⟩ := c5_theorem.1 Nat 2 "a" ["b", "c"] (fun _ => 0)
    (by decide) (by decide)
  exact ⟨h1, h2⟩

/-! ## Lemmas: `set_text`, `__init__` and the cache operations -/

theorem setTextRA_fields (C : RACollab) (e : RAEntry) (t l : String)
    (e' : RAEntry) (r : Option Nat) (h : setTextRA C e t l = (e', r)) :
    e'.audio32k = e.audio32k ∧ e'.sslContent = e.sslContent ∧
    e'.initialized = e.initialized ∧ e'.text = t ∧ e'.language = l := by
  unfold setTextRA at h
  by_cases hz : l = "zh"
  · rw [if_pos hz] at h
    dsimp only at h
    cases hph : C.phonZh t with
    | error err =>
      rw [hph] at h
      injection h with h1 h2
      subst h1
      exact ⟨rfl, rfl, rfl, rfl, hz.symm ▸ rfl⟩
    | ok ids =>
      rw [hph] at h
      dsimp only at h
      cases hb : extractBertFeatures C ids.length t with
      | error err =>
        rw [hb] at h
        injection h with h1 h2
        subst h1
        exact ⟨rfl, rfl, rfl, rfl, rfl⟩
      | ok m =>
        rw [hb] at h
        injection h with h1 h2
        subst h1
        exact ⟨rfl, rfl, rfl, rfl, rfl⟩
  · rw [if_neg hz] at h
    dsimp only at h
    cases hph : C.phonJa t with
    | error err =>
      rw [hph] at h
      injection h with h1 h2
      subst h1
      exact ⟨rfl, rfl, rfl, rfl, rfl⟩
    | ok ids =>
      rw [hph] at h
      injection h with h1 h2
      subst h1
      exact ⟨rfl, rfl, rfl, rfl, rfl⟩

theorem setTextRA_fail_ja (C : RACollab) (e : RAEntry) (t l : String)
    (err : Nat) (hz : l ≠ "zh") (hph : C.phonJa t = .error err) :
    setTextRA C e t l = ({ e with text := t, language := l }, some err) := by
  unfold setTextRA
  rw [if_neg hz, hph]

theorem setTextRA_fail_zh (C : RACollab) (e : RAEntry) (t l : String)
    (err : Nat) (hz : l = "zh") (hph : C.phonZh t = .error err) :
    setTextRA C e t l = ({ e with text := t, language := l }, some err) := by
  unfold setTextRA
  rw [if_pos hz, hph]

theorem setTextRA_ok_ja (C : RACollab) (e : RAEntry) (t l : String)
    (ids : List Nat) (hz : l ≠ "zh") (hph : C.phonJa t = .ok ids) :
    setTextRA C e t l =
      ({ e with
          text := t,
          language := l,
          phonemesSeq := some ids,
          textBert := some (zeroMat ids.length bertFeatureDim) }, none) := by
  unfold setTextRA
  rw [if_neg hz, hph]

theorem initRA_of_initialized (C : RACollab) (e : RAEntry) (wav t l : String)
    (hi : e.initialized = true) : initRA C e wav t l = (e, none) := by
  unfold initRA
  rw [if_pos hi]

theorem initRA_ok_fields (C : RACollab) (e : RAEntry) (wav t l : String)
    (e' : RAEntry) (hi : e.initialized = false)
    (h : initRA C e wav t l = (e', none)) :
    e'.initialized = true ∧ e'.text = t ∧ e'.language = l := by
  unfold initRA at h
  rw [if_neg (by rw [hi]; exact Bool.false_ne_true)] at h
  dsimp only at h
  rcases hst : setTextRA C (resetRA e t l) t l with ⟨e₁, r₁⟩
  rw [hst] at h
  obtain ⟨-, -, -, hst4, hst5⟩ := setTextRA_fields _ _ _ _ _ _ hst
  cases r₁ with
  | some err => simp at h
  | none =>
    dsimp only at h
    cases ha : C.loadAudio wav with
    | error err => rw [ha] at h; simp at h
    | ok a =>
      rw [ha] at h
      dsimp only at h
      cases hh : C.hubert (C.resample a) with
      | error err => rw [hh] at h; simp at h
      | ok s =>
        rw [hh] at h
        injection h with h1 h2
        subst h1
        exact ⟨rfl, hst4, hst5⟩

theorem initRA_fail_fields (C : RACollab) (e : RAEntry) (wav t l : String)
    (e' : RAEntry) (err : Nat) (hi : e.initialized = false)
    (h : initRA C e wav t l = (e', some err)) :
    e'.initialized = false ∧ e'.text = t ∧ e'.language = l := by
  unfold initRA at h
  rw [if_neg (by rw [hi]; exact Bool.false_ne_true)] at h
  dsimp only at h
  rcases hst : setTextRA C (resetRA e t l) t l with ⟨e₁, r₁⟩
  rw [hst] at h
  obtain ⟨-, -, hst3, hst4, hst5⟩ := setTextRA_fields _ _ _ _ _ _ hst
  replace hst3 : e₁.initialized = false := by
    rw [hst3]
    simpa [resetRA] using hi
  cases r₁ with
  | some err₁ =>
    dsimp only at h
    injection h with h1 h2
    subst h1
    exact ⟨hst3, hst4, hst5⟩
  | none =>
    dsimp only at h
    cases ha : C.loadAudio wav with
    | error err₁ =>
      rw [ha] at h
      injection h with h1 h2
      subst h1
      exact ⟨hst3, hst4, hst5⟩
    | ok a =>
      rw [ha] at h
      dsimp only at h
      cases hh : C.hubert (C.resample a) with
      | error err₁ =>
        rw [hh] at h
        injection h with h1 h2
        subst h1
        exact ⟨hst3, hst4, hst5⟩
      | ok s =>
        rw [hh] at h
        simp at h

theorem find?_filter_ne_none {α : Type} (items : List (String × α))
    (k : String) :
    ((items.filter (fun p => !(p.1 == k))).find? (fun p => p.1 == k)) =
      none := by
  rw [List.find?_eq_none]
  intro p hp
  have := (List.mem_filter.mp hp).2
  simp only [Bool.not_eq_true'] at this
  simp [this]

theorem lookupLRU_touch_self {α : Type} (σ : LRUCacheDict α) (k : String) :
    lookupLRU (touchLRU σ k) k = lookupLRU σ k := by
  unfold touchLRU
  cases hl : lookupLRU σ k with
  | none => exact hl
  | some v =>
    show lookupLRU ⟨σ.capacity,
      σ.items.filter (fun p => !(p.1 == k)) ++ [(k, v)]⟩ k = some v
    unfold lookupLRU
    rw [List.find?_append, find?_filter_ne_none]
    simp

theorem find?_map_replace {α : Type} (its : List (String × α)) (k : String)
    (v : α) (w : String × α)
    (hw : its.find? (fun p => p.1 == k) = some w) :
    ((its.map (fun p => if p.1 == k then (k, v) else p)).find?
      (fun p => p.1 == k)) = some (k, v) := by
  have hcomp : ((fun p => p.1 == k) ∘
      (fun p : String × α => if p.1 == k then (k, v) else p)) =
      (fun p : String × α => p.1 == k) := by
    funext p
    by_cases hp : (p.1 == k) = true
    · simp only [Function.comp_apply, if_pos hp]
      rw [hp]
      simp
    · simp only [Function.comp_apply, if_neg hp]
  rw [List.find?_map, hcomp, hw]
  have hpw := List.find?_some hw
  show some (if (w.1 == k) = true then (k, v) else w) = some (k, v)
  rw [if_pos hpw]

theorem lookupLRU_replace_self {α : Type} (σ : LRUCacheDict α) (k : String)
    (v w : α) (h : lookupLRU σ k = some w) :
    lookupLRU (replaceValue σ k v) k = some v := by
  unfold lookupLRU at h ⊢
  unfold replaceValue
  cases hf : σ.items.find? (fun p => p.1 == k) with
  | none => rw [hf] at h; simp at h
  | some p =>
    rw [find?_map_replace σ.items k v p hf]
    rfl

theorem lookupLRU_setItem_fresh {α : Type} (σ : LRUCacheDict α) (k : String)
    (v : α) (hl : lookupLRU σ k = none) (hcap : 1 ≤ σ.capacity) :
    lookupLRU (setItemLRU σ k v) k = some v := by
  have hnone : σ.items.find? (fun p => p.1 == k) = none := by
    unfold lookupLRU at hl
    cases hf : σ.items.find? (fun p => p.1 == k) with
    | none => rfl
    | some p => rw [hf] at hl; simp at hl
  have hall : ∀ p ∈ σ.items, ((p.1 == k) = false) := by
    intro p hp
    have := List.find?_eq_none.mp hnone p hp
    simpa using this
  unfold setItemLRU lookupLRU
  dsimp only
  set fl := σ.items.filter (fun p => !(p.1 == k)) with hfl
  have hfl_none : fl.find? (fun p => p.1 == k) = none :=
    find?_filter_ne_none σ.items k
  by_cases hov : σ.capacity < (fl ++ [(k, v)]).length
  · rw [if_pos hov]
    have hflne : fl ≠ [] := by
      intro hh
      rw [hh] at hov
      simp at hov
      omega
    have hdrop : (fl ++ [(k, v)]).drop 1 = fl.drop 1 ++ [(k, v)] :=
      List.drop_append_of_le_length (List.length_pos.mpr hflne)
    rw [hdrop, List.find?_append]
    have h1 : (fl.drop 1).find? (fun p => p.1 == k) = none := by
      rw [List.find?_eq_none]
      intro p hp
      exact List.find?_eq_none.mp hfl_none p (List.mem_of_mem_drop hp)
    rw [h1]
    simp
  · rw [if_neg hov]
    rw [List.find?_append, hfl_none]
    simp

/-! ## The `__new__` / constructor-call reduction lemmas -/

theorem newRA_present_match (C : RACollab) (σ : LRUCacheDict RAEntry)
    (wav t l : String) (e : RAEntry) (hlk : lookupLRU σ wav = some e)
    (ht : e.text = t) (hl : e.language = l) :
    newRA C σ wav t l = (touchLRU σ wav, .ok e) := by
  unfold newRA
  rw [hlk]
  dsimp only
  rw [if_neg (by push_neg; exact ⟨ht, hl⟩)]

theorem requestRA_present_match (C : RACollab) (σ : LRUCacheDict RAEntry)
    (wav t l : String) (e : RAEntry) (hlk : lookupLRU σ wav = some e)
    (ht : e.text = t) (hl : e.language = l) (hi : e.initialized = true) :
    requestRA C σ wav t l = (replaceValue (touchLRU σ wav) wav e, .ok e) ∧
    lookupLRU (requestRA C σ wav t l).1 wav = some e := by
  have hreq : requestRA C σ wav t l =
      (replaceValue (touchLRU σ wav) wav e, .ok e) := by
    unfold requestRA
    rw [newRA_present_match C σ wav t l e hlk ht hl]
    dsimp only
    rw [initRA_of_initialized C e wav t l hi]
  refine ⟨hreq, ?_⟩
  rw [hreq]
  exact lookupLRU_replace_self _ _ _ _ (by rw [lookupLRU_touch_self, hlk])

theorem newRA_ok_props (C : RACollab) (σ : LRUCacheDict RAEntry)
    (wav t l : String) (σ₁ : LRUCacheDict RAEntry) (inst : RAEntry)
    (hcap : 1 ≤ σ.capacity) (h : newRA C σ wav t l = (σ₁, .ok inst)) :
    lookupLRU σ₁ wav = some inst ∧
    (inst.initialized = true → inst.text = t ∧ inst.language = l) := by
  unfold newRA at h
  cases hlk : lookupLRU σ wav with
  | some e =>
    rw [hlk] at h
    dsimp only at h
    by_cases hdiff : e.text ≠ t ∨ e.language ≠ l
    · rw [if_pos hdiff] at h
      rcases hst : setTextRA C e t l with ⟨e₁, r₁⟩
      rw [hst] at h
      cases r₁ with
      | some err => simp at h
      | none =>
        dsimp only at h
        injection h with h1 h2
        injection h2 with h2
        subst h1
        subst h2
        obtain ⟨-, -, -, h4, h5⟩ := setTextRA_fields _ _ _ _ _ _ hst
        refine ⟨?_, fun _ => ⟨h4, h5⟩⟩
        exact lookupLRU_replace_self _ _ _ _ (by rw [lookupLRU_touch_self, hlk])
    · rw [if_neg hdiff] at h
      injection h with h1 h2
      injection h2 with h2
      subst h1
      subst h2
      push_neg at hdiff
      refine ⟨?_, fun _ => ⟨hdiff.1, hdiff.2⟩⟩
      rw [lookupLRU_touch_self, hlk]
  | none =>
    rw [hlk] at h
    dsimp only at h
    injection h with h1 h2
    injection h2 with h2
    subst h1
    subst h2
    refine ⟨lookupLRU_setItem_fresh σ wav _ hlk hcap, fun hct => ?_⟩
    simp [blankRA] at hct

theorem requestRA_ok_props (C : RACollab) (σ : LRUCacheDict RAEntry)
    (wav t l : String) (σ₂ : LRUCacheDict RAEntry) (e₂ : RAEntry)
    (hcap : 1 ≤ σ.capacity) (h : requestRA C σ wav t l = (σ₂, .ok e₂)) :
    e₂.text = t ∧ e₂.language = l ∧ e₂.initialized = true ∧
    lookupLRU σ₂ wav = some e₂ := by
  unfold requestRA at h
  rcases hnew : newRA C σ wav t l with ⟨σ₁, r⟩
  rw [hnew] at h
  cases r with
  | error err => simp at h
  | ok inst =>
    dsimp only at h
    rcases hini : initRA C inst wav t l with ⟨inst₁, r₁⟩
    rw [hini] at h
    cases r₁ with
    | some err => simp at h
    | none =>
      dsimp only at h
      injection h with h1 h2
      injection h2 with h2
      subst h1
      subst h2
      obtain ⟨hlk1, himp⟩ := newRA_ok_props C σ wav t l σ₁ inst hcap hnew
      have hprops : inst₁.text = t ∧ inst₁.language = l ∧
          inst₁.initialized = true := by
        cases hi : inst.initialized with
        | true =>
          rw [initRA_of_initialized C inst wav t l hi] at hini
          injection hini with hi1 hi2
          subst hi1
          obtain ⟨h4, h5⟩ := himp hi
          exact ⟨h4, h5, hi⟩
        | false =>
          obtain ⟨hi1, hi2, hi3⟩ := initRA_ok_fields C inst wav t l inst₁ hi hini
          exact ⟨hi2, hi3, hi1⟩
      exact ⟨hprops.1, hprops.2.1, hprops.2.2,
        lookupLRU_replace_self _ _ _ _ hlk1⟩

/-! ## Sample data for concrete witnesses -/

deriving instance DecidableEq for Except

/-- A fully initialized cached entry used by witnesses. -/
def sampleEntry : RAEntry := ⟨"t1", "ja", some [1], some [], some 7, some 8, true⟩

/-- A cache of capacity 10 holding `sampleEntry` under `"a.wav"`. -/
def sampleCache : LRUCacheDict RAEntry := ⟨10, [("a.wav", sampleEntry)]⟩

/-- Collaborators that always succeed (with empty phoneme lists, so the
zero feature matrix is empty too). -/
def sampleOkCollab : RACollab :=
  ⟨fun _ => .ok [], fun _ => .ok [], fun _ => .ok [], fun _ => .ok 7,
   fun a => a, fun _ => .ok 9⟩

/-- Collaborators that always raise (error code 42). -/
def sampleFailCollab : RACollab :=
  ⟨fun _ => .error 42, fun _ => .error 42, fun _ => .error 42,
   fun _ => .error 42, fun a => a, fun _ => .error 42⟩

/-! ## Claim C2 -/

/-- C2 counterexample: the cache holds a fully initialized entry with text
`"t1"`; an update request with text `"t2"` whose phonemization raises
leaves the entry with its `text` field already overwritten to `"t2"` — the
update is not all-or-nothing: `set_text` assigns `text` and `language`
before calling the phonemizer. -/
theorem c2_counterexample :
    (requestRA sampleFailCollab sampleCache "a.wav" "t2" "ja").2 =
      .error 42 ∧
    (lookupLRU sampleCache "a.wav").map RAEntry.text = some "t1" ∧
    (lookupLRU (requestRA sampleFailCollab sampleCache "a.wav" "t2" "ja").1
      "a.wav").map RAEntry.text = some "t2" ∧
    ("t2" : String) ≠ "t1" := by
  refine ⟨by decide, by decide, by decide, by decide⟩

/-- C2 (amended): if the phonemization step of an in-place text/language
update raises, the previously cached entry keeps its phoneme ids, semantic
features, audio buffers and initialized flag intact, but its `text` and
`language` fields have already been overwritten with the new values (the
assignments precede the phonemizer call, so the update is not
all-or-nothing; see the counterexample). -/
theorem c2_theorem (C : RACollab) (σ : LRUCacheDict RAEntry)
    (wav t l : String) (e : RAEntry) (err : Nat)
    (hlk : lookupLRU σ wav = some e)
    (hdiff : e.text ≠ t ∨ e.language ≠ l)
    (hfail : (l = "zh" ∧ C.phonZh t = .error err) ∨
             (l ≠ "zh" ∧ C.phonJa t = .error err)) :
    (requestRA C σ wav t l).2 = .error err ∧
    lookupLRU (requestRA C σ wav t l).1 wav =
      some { e with text := t, language := l } := by
  have hset : setTextRA C e t l =
      ({ e with text := t, language := l }, some err) := by
    rcases hfail with ⟨hz, hf⟩ | ⟨hz, hf⟩
    · exact setTextRA_fail_zh C e t l err hz hf
    · exact setTextRA_fail_ja C e t l err hz hf
  have hreq : requestRA C σ wav t l =
      (replaceValue (touchLRU σ wav) wav { e with text := t, language := l },
       .error err) := by
    unfold requestRA newRA
    rw [hlk]
    dsimp only
    rw [if_pos hdiff, hset]
  rw [hreq]
  exact ⟨rfl,
    lookupLRU_replace_self _ _ _ _ (by rw [lookupLRU_touch_self, hlk])⟩

/-- C2 witness: the amended theorem applied to the counterexample's
concrete configuration. -/
theorem c2_witness :
    (requestRA sampleFailCollab sampleCache "a.wav" "t2" "ja").2 =
      .error 42 ∧
    lookupLRU (requestRA sampleFailCollab sampleCache "a.wav" "t2" "ja").1
      "a.wav" = some { sampleEntry with text := "t2", language := "ja" } :=
  c2_theorem sampleFailCollab sampleCache "a.wav" "t2" "ja" sampleEntry 42
    (by decide) (by decide) (Or.inr ⟨by decide, rfl⟩)

/-! ## Claim C3 -/

/-- C3: for a cached, fully initialized entry requested under the same
audio key with different text (or language), when `set_text` succeeds the
entry is updated in place — the same key now maps to the updated entry
with the new text, language, phoneme ids and semantic features — while the
stored audio embedding and 32 kHz waveform buffers are preserved
unchanged.  The conclusion holds for *every* collaborator bundle `C`, in
particular those whose audio loader and encoder always raise, so neither
is invoked (nothing audio-related is recomputed). -/
theorem c3_theorem (C : RACollab) (σ : LRUCacheDict RAEntry)
    (wav t l : String) (e e₁ : RAEntry)
    (hlk : lookupLRU σ wav = some e) (hinit : e.initialized = true)
    (hdiff : e.text ≠ t ∨ e.language ≠ l)
    (hset : setTextRA C e t l = (e₁, none)) :
    (requestRA C σ wav t l).2 = .ok e₁ ∧
    lookupLRU (requestRA C σ wav t l).1 wav = some e₁ ∧
    e₁.audio32k = e.audio32k ∧ e₁.sslContent = e.sslContent ∧
    e₁.text = t ∧ e₁.language = l ∧ e₁.initialized = true ∧
    (l ≠ "zh" → ∀ ids, C.phonJa t = .ok ids →
      e₁.phonemesSeq = some ids ∧
      e₁.textBert = some (zeroMat ids.length bertFeatureDim)) := by
  obtain ⟨hf1, hf2, hf3, hf4, hf5⟩ := setTextRA_fields C e t l e₁ none hset
  have hinit1 : e₁.initialized = true := by rw [hf3, hinit]
  have hreq : requestRA C σ wav t l =
      (replaceValue (replaceValue (touchLRU σ wav) wav e₁) wav e₁,
       .ok e₁) := by
    unfold requestRA newRA
    rw [hlk]
    dsimp only
    rw [if_pos hdiff, hset]
    dsimp only
    rw [initRA_of_initialized C e₁ wav t l hinit1]
  refine ⟨by rw [hreq], ?_, hf1, hf2, hf4, hf5, hinit1, ?_⟩
  · rw [hreq]
    exact lookupLRU_replace_self _ _ _ _
      (lookupLRU_replace_self _ _ _ _ (by rw [lookupLRU_touch_self, hlk]))
  · intro hz ids hph
    have hja := setTextRA_ok_ja C e t l ids hz hph
    rw [hset] at hja
    injection hja with hja1 hja2
    rw [hja1]
    exact ⟨rfl, rfl⟩

/-- C3 witness: the theorem applied to a concrete initialized cached entry
and a text update, with collaborators whose phonemizer succeeds. -/
theorem c3_witness :
    (requestRA sampleOkCollab sampleCache "a.wav" "t2" "ja").2 =
      .ok { sampleEntry with
              text := "t2", language := "ja", phonemesSeq := some [],
              textBert := some [] } ∧
    ({ sampleEntry with
        text := "t2", language := "ja", phonemesSeq := some [],
        textBert := some [] } : RAEntry).audio32k = sampleEntry.audio32k := by
  obtain ⟨h1, -, h3, -⟩ := c3_theorem sampleOkCollab sampleCache "a.wav"
    "t2" "ja" sampleEntry
    { sampleEntry with
        text := "t2", language := "ja", phonemesSeq := some [],
        textBert := some [] }
    (by decide) (by decide) (by decide) (by decide)
  exact ⟨h1, h3⟩

/-! ## Claim C4 -/

/-- C4: after a successful request for `(wav, t, l)` on a cache of
positive capacity returned entry `e`, a second request with identical
arguments returns the very same entry `e`, and the key still maps to `e`
unchanged.  The second request's conclusion holds for *every* collaborator
bundle `C₂` — including one whose phonemizers, audio loader and encoder
all raise — so no phoneme, feature, or audio-embedding computation runs on
the second request. -/
theorem c4_theorem (C₁ C₂ : RACollab) (σ σ₁ : LRUCacheDict RAEntry)
    (wav t l : String) (e : RAEntry)
    (hcap : 1 ≤ σ.capacity)
    (h : requestRA C₁ σ wav t l = (σ₁, .ok e)) :
    (requestRA C₂ σ₁ wav t l).2 = .ok e ∧
    lookupLRU (requestRA C₂ σ₁ wav t l).1 wav = some e := by
  obtain ⟨ht, hl, hi, hlk⟩ := requestRA_ok_props C₁ σ wav t l σ₁ e hcap h
  obtain ⟨heq, hlk2⟩ := requestRA_present_match C₂ σ₁ wav t l e hlk ht hl hi
  exact ⟨by rw [heq], hlk2⟩

/-- C4 witness: a concrete first request creates the entry; a second
request with identical arguments and all-failing collaborators still
returns it unchanged. -/
theorem c4_witness :
    (requestRA sampleFailCollab
      ⟨10, [("a.wav", ⟨"t1", "ja", some [], some [], some 7, some 9, true⟩)]⟩
      "a.wav" "t1" "ja").2 =
      .ok ⟨"t1", "ja", some [], some [], some 7, some 9, true⟩ ∧
    lookupLRU (requestRA sampleFailCollab
      ⟨10, [("a.wav", ⟨"t1", "ja", some [], some [], some 7, some 9, true⟩)]⟩
      "a.wav" "t1" "ja").1 "a.wav" =
      some ⟨"t1", "ja", some [], some [], some 7, some 9, true⟩ := by
  obtain ⟨h1, h2⟩ := c4_theorem sampleOkCollab sampleFailCollab
    (emptyLRU RAEntry 10)
    ⟨10, [("a.wav", ⟨"t1", "ja", some [], some [], some 7, some 9, true⟩)]⟩
    "a.wav" "t1" "ja" ⟨"t1", "ja", some [], some [], some 7, some 9, true⟩
    (by decide) (by decide)
  exact ⟨h1, h2⟩

/-! ## Claim C10 -/

/-- C10 (implicit): when a key absent from a positive-capacity cache is
requested, the blank entry is inserted by `__new__` before any
initialization work; if initialization raises, the key remains mapped to
the partially-initialized entry (`initialized = false`, with `text` and
`language` already set), and the `__new__` phase of any subsequent request
for the same key — under any collaborators `C₂` — returns that same
uninitialized entry from the cache instead of creating a new one. -/
theorem c10_theorem (C : RACollab) (σ : LRUCacheDict RAEntry)
    (wav t l : String) (e₁ : RAEntry) (err : Nat)
    (hlk : lookupLRU σ wav = none) (hcap : 1 ≤ σ.capacity)
    (hinit : initRA C blankRA wav t l = (e₁, some err)) :
    (requestRA C σ wav t l).2 = .error err ∧
    lookupLRU (requestRA C σ wav t l).1 wav = some e₁ ∧
    e₁.initialized = false ∧ e₁.text = t ∧ e₁.language = l ∧
    (∀ C₂ : RACollab,
      newRA C₂ (requestRA C σ wav t l).1 wav t l =
        (touchLRU (requestRA C σ wav t l).1 wav, .ok e₁)) := by
  have hfields := initRA_fail_fields C blankRA wav t l e₁ err rfl hinit
  have hreq : requestRA C σ wav t l =
      (replaceValue (setItemLRU σ wav blankRA) wav e₁, .error err) := by
    unfold requestRA newRA
    rw [hlk]
    dsimp only
    rw [hinit]
  have hlk2 : lookupLRU (requestRA C σ wav t l).1 wav = some e₁ := by
    rw [hreq]
    exact lookupLRU_replace_self _ _ _ _
      (lookupLRU_setItem_fresh σ wav blankRA hlk hcap)
  refine ⟨by rw [hreq], hlk2, hfields.1, hfields.2.1, hfields.2.2, ?_⟩
  intro C₂
  exact newRA_present_match C₂ _ wav t l e₁ hlk2 hfields.2.1 hfields.2.2

/-- C10 witness: requesting a fresh key with a failing phonemizer leaves
an uninitialized entry mapped under the key. -/
theorem c10_witness :
    (requestRA sampleFailCollab (emptyLRU RAEntry 10) "a.wav" "t1"
      "ja").2 = .error 42 ∧
    lookupLRU (requestRA sampleFailCollab (emptyLRU RAEntry 10) "a.wav"
      "t1" "ja").1 "a.wav" =
      some ⟨"t1", "ja", none, none, none, none, false⟩ := by
  obtain ⟨h1, h2, -, -, -, -⟩ := c10_theorem sampleFailCollab
    (emptyLRU RAEntry 10) "a.wav" "t1" "ja"
    ⟨"t1", "ja", none, none, none, none, false⟩ 42
    (by decide) (by decide) (by decide)
  exact ⟨h1, h2⟩

end Genie
